import Mathlib

/-
Verification development for the 8-bit machine: a shallow embedding of
the two-pass assembler (asm.py) and of the CPU emulator (emulator.py),
together with theorems settling the specification claims.

Source lines and tokens are modelled as `List Char`; machine integers are
`Nat` with explicit `% 256` exactly where the source masks or wraps;
Python exceptions (KeyError, IndexError, ValueError) are modelled as
`Option` failure (`none`).
-/

namespace EightBit

/-- Python default whitespace, as tested by str.strip. -/
def pySpace (c : Char) : Bool :=
  c == ' ' || c == '\t' || c == '\n' || c == '\r' ||
  c == Char.ofNat 11 || c == Char.ofNat 12

/-- The single-quote character. -/
def quoteS : Char := Char.ofNat 39

/-- The double-quote character. -/
def quoteD : Char := '"'

/-- Python str.strip: drop leading and trailing whitespace. -/
def pystrip (l : List Char) : List Char :=
  ((l.dropWhile pySpace).reverse.dropWhile pySpace).reverse

/-- Python str.rstrip with a comma argument. -/
def rstripComma (l : List Char) : List Char :=
  (l.reverse.dropWhile (fun c => c == ',')).reverse

/-- Python str.upper restricted to ASCII, as used on mnemonic and register tokens. -/
def pyupper (l : List Char) : List Char := l.map Char.toUpper

/-- The character loop of tokenize in asm.py: state is (remaining input,
in_quote, quote_char, current token, emitted tokens). -/
def tokLoop : List Char → Bool → Char → List Char → List (List Char) → List (List Char)
  | [], _, _, cur, acc => if cur.isEmpty then acc else acc ++ [cur]
  | c :: rest, inq, qc, cur, acc =>
    if inq then
      if c == qc then tokLoop rest false qc (cur ++ [c]) acc
      else tokLoop rest true qc (cur ++ [c]) acc
    else if c == quoteD || c == quoteS then
      tokLoop rest true c (cur ++ [c]) acc
    else if c == ' ' || c == '\t' || c == ',' then
      if cur.isEmpty then tokLoop rest false qc cur acc
      else tokLoop rest false qc [] (acc ++ [cur])
    else tokLoop rest false qc (cur ++ [c]) acc

/-- tokenize from asm.py: text before the first semicolon is stripped of
surrounding whitespace and split into tokens, keeping quoted runs together.
The initial quote_char is arbitrary since it is set before first use. -/
def tokenize (line : List Char) : List (List Char) :=
  tokLoop (pystrip (line.takeWhile (fun c => !(c == ';')))) false ' ' [] []

/-- ASCII decimal digit test. -/
def isDigitC (c : Char) : Bool := '0' ≤ c && c ≤ '9'

/-- Python str.isdigit for ASCII tokens: nonempty and all digits. -/
def isdigitStr (l : List Char) : Bool := !l.isEmpty && l.all isDigitC

/-- Value of one decimal digit character. -/
def decDigit (c : Char) : Nat := c.toNat - 48

/-- Value of a decimal digit string, most significant first. -/
def parseDec (l : List Char) : Nat := l.foldl (fun a c => 10 * a + decDigit c) 0

/-- ASCII hexadecimal digit test. -/
def isHexC (c : Char) : Bool :=
  isDigitC c || ('a' ≤ c && c ≤ 'f') || ('A' ≤ c && c ≤ 'F')

/-- Value of one hexadecimal digit character. -/
def hexDigit (c : Char) : Nat :=
  if isDigitC c then c.toNat - 48
  else if 'a' ≤ c then c.toNat - 87
  else c.toNat - 55

/-- Python int(s, 16) on the text after the 0x prefix; ValueError is `none`. -/
def parseHex (l : List Char) : Option Nat :=
  if !l.isEmpty && l.all isHexC then
    some (l.foldl (fun a c => 16 * a + hexDigit c) 0)
  else none

/-- The label table built by pass 1; later bindings are consed on the
front, so first match realises the last-write-wins overwrite of a dict. -/
abbrev LabelTable := List (List Char × Nat)

/-- Python dict lookup over the cons-ordered table. -/
def lookupLbl : LabelTable → List Char → Option Nat
  | [], _ => none
  | (k, v) :: rest, t => if k = t then some v else lookupLbl rest t

/-- parse_value from asm.py: quoted character, hexadecimal, decimal
(masked to a byte, negatives wrapped), or label lookup; ValueError is `none`.
Note that only the decimal branch masks; hex and label values are returned raw. -/
def parse_value (tok : List Char) (labels : LabelTable) : Option Nat :=
  let t := pystrip tok
  if t.head? = some quoteS ∧ t.getLast? = some quoteS ∧ t.length = 3 then
    (t.get? 1).map Char.toNat
  else if t.take 2 = ['0', 'x'] then parseHex (t.drop 2)
  else if isdigitStr t = true ∨ (t.head? = some '-' ∧ isdigitStr (t.drop 1) = true) then
    some (if t.head? = some '-' then (256 - parseDec (t.drop 1) % 256) % 256
          else parseDec t % 256)
  else lookupLbl labels t

/-- The REGS mapping of asm.py; KeyError is `none`. -/
def regIdx (t : List Char) : Option Nat :=
  if t = ['A'] then some 0 else if t = ['B'] then some 1 else none

/-- Python str.split on a comma, empty pieces included. -/
def splitCommaAux : List Char → List Char → List (List Char)
  | [], cur => [cur.reverse]
  | c :: rest, cur =>
    if c == ',' then cur.reverse :: splitCommaAux rest []
    else splitCommaAux rest (c :: cur)

/-- Python str.split on a comma. -/
def splitComma (l : List Char) : List (List Char) := splitCommaAux l []

/-- Pass-1 size estimate for a DB line: join the already-tokenized operands
with spaces and count comma-separated pieces, exactly as asm.py does. -/
def dbSize (args : List (List Char)) : Nat :=
  (List.intercalate [' '] args).countP (fun c => c == ',') + 1

/-- Pass-1 encoded-length table of asm.py; unknown mnemonic is `none`. -/
def instrSize (op : List Char) (args : List (List Char)) : Option Nat :=
  if op = "DB".toList then some (dbSize args)
  else if op = "LDI".toList ∨ op = "MOV".toList ∨ op = "STR".toList then some 3
  else if op = "ADD".toList ∨ op = "SUB".toList then some 3
  else if op = "JMP".toList ∨ op = "JZ".toList ∨ op = "JNZ".toList then some 2
  else if op = "OUT".toList ∨ op = "IN".toList then some 2
  else if op = "NOP".toList ∨ op = "HLT".toList then some 1
  else none

/-- One parsed instruction line: its pass-1 address, uppercased mnemonic
and raw operand tokens. -/
structure Parsed where
  addr : Nat
  op : List Char
  args : List (List Char)
deriving DecidableEq

/-- Pass 1 of assemble: walk the lines accumulating the label table and
the parsed instruction stream; an unknown mnemonic aborts with `none`. -/
def pass1 : List (List Char) → Nat → LabelTable → List Parsed →
    Option (LabelTable × List Parsed)
  | [], _, labels, parsed => some (labels, parsed)
  | raw :: rest, pc, labels, parsed =>
    let line := pystrip raw
    if line.isEmpty then pass1 rest pc labels parsed
    else if line.head? = some ';' then pass1 rest pc labels parsed
    else if line.getLast? = some ':' then
      pass1 rest pc ((pystrip line.dropLast, pc) :: labels) parsed
    else
      match tokenize line with
      | [] => pass1 rest pc labels parsed
      | t0 :: targs =>
        match instrSize (pyupper t0) targs with
        | none => none
        | some sz => pass1 rest (pc + sz) labels (parsed ++ [⟨pc, pyupper t0, targs⟩])

/-- Emission of one DB operand token in pass 2: a double-quoted token
expands to one byte per enclosed character, anything else goes through
parse_value; each byte is masked to 0..255. -/
def dbByte (labels : LabelTable) (tok : List Char) : Option (List Nat) :=
  let t := pystrip tok
  if t.head? = some quoteD ∧ t.getLast? = some quoteD then
    some (((t.drop 1).dropLast).map (fun c => c.toNat % 256))
  else (parse_value t labels).map (fun v => [v % 256])

/-- Pass-2 byte emission for one parsed line, exactly as asm.py: missing
operands (IndexError), unknown registers (KeyError) and unresolvable
values (ValueError) are all `none`. -/
def emit1 (labels : LabelTable) (p : Parsed) : Option (List Nat) :=
  let o := pyupper p.op
  if o = "DB".toList then
    let dataToks := (p.args.map (fun a => (splitComma a).filter (fun x => !x.isEmpty))).flatten
    (dataToks.mapM (dbByte labels)).map List.flatten
  else if o = "LDI".toList then
    match p.args with
    | a0 :: a1 :: _ =>
      match regIdx (pyupper (rstripComma (pystrip a0))), parse_value (pystrip a1) labels with
      | some r, some v => some [0x10, r, v % 256]
      | _, _ => none
    | _ => none
  else if o = "MOV".toList then
    match p.args with
    | a0 :: a1 :: _ =>
      match regIdx (pyupper (rstripComma (pystrip a0))), parse_value (pystrip a1) labels with
      | some r, some v => some [0x11, r, v % 256]
      | _, _ => none
    | _ => none
  else if o = "STR".toList then
    match p.args with
    | a0 :: a1 :: _ =>
      match regIdx (pyupper (rstripComma (pystrip a0))), parse_value (pystrip a1) labels with
      | some r, some v => some [0x12, r, v % 256]
      | _, _ => none
    | _ => none
  else if o = "ADD".toList then
    match p.args with
    | a0 :: a1 :: _ =>
      match regIdx (pyupper (rstripComma (pystrip a0))), regIdx (pyupper (pystrip a1)) with
      | some r1, some r2 => some [0x20, r1, r2]
      | _, _ => none
    | _ => none
  else if o = "SUB".toList then
    match p.args with
    | a0 :: a1 :: _ =>
      match regIdx (pyupper (rstripComma (pystrip a0))), regIdx (pyupper (pystrip a1)) with
      | some r1, some r2 => some [0x21, r1, r2]
      | _, _ => none
    | _ => none
  else if o = "JMP".toList ∨ o = "JZ".toList ∨ o = "JNZ".toList then
    match p.args with
    | a0 :: _ =>
      (parse_value (pystrip a0) labels).map (fun v =>
        [if o = "JMP".toList then 0x30 else if o = "JZ".toList then 0x31 else 0x32, v % 256])
    | _ => none
  else if o = "OUT".toList then
    match p.args with
    | a0 :: _ =>
      (regIdx (pyupper (pystrip a0))).map (fun r => [0x40, r])
    | _ => none
  else if o = "IN".toList then
    match p.args with
    | a0 :: _ =>
      (regIdx (pyupper (pystrip a0))).map (fun r => [0x41, r])
    | _ => none
  else if o = "NOP".toList then some [0x00]
  else if o = "HLT".toList then some [0xFF]
  else none

/-- Pass 2 of assemble: emit each parsed line in order and concatenate. -/
def pass2 (labels : LabelTable) : List Parsed → Option (List Nat)
  | [] => some []
  | p :: rest => do
    let b ← emit1 labels p
    let r ← pass2 labels rest
    pure (b ++ r)

/-- assemble from asm.py: pass 1 then pass 2; any raised error is `none`. -/
def assemble (lines : List (List Char)) : Option (List Nat) := do
  let (labels, parsed) ← pass1 lines 0 [] []
  pass2 labels parsed

/-- CPU state of emulator.py: 256-byte RAM (as a function on addresses),
registers A and B, program counter and zero flag. -/
structure CPU where
  ram : Nat → Nat
  regA : Nat
  regB : Nat
  pc : Nat
  zero : Bool

/-- The freshly constructed CPU: all-zero state. -/
def cpu0 : CPU := ⟨fun _ => 0, 0, 0, 0, false⟩

/-- Write one RAM cell. -/
def writeRam (st : CPU) (a v : Nat) : CPU :=
  { st with ram := fun i => if i = a then v else st.ram i }

/-- load_bin from emulator.py: bytes are masked and placed at successive
addresses modulo 256. -/
def load_bin : CPU → List Nat → Nat → CPU
  | st, [], _ => st
  | st, b :: rest, addr => load_bin (writeRam st (addr % 256) (b % 256)) rest (addr + 1)

/-- Read of the two-element register file self.reg; an index other than
0 or 1 raises IndexError, modelled as `none`. -/
def getReg (st : CPU) (r : Nat) : Option Nat :=
  if r = 0 then some st.regA else if r = 1 then some st.regB else none

/-- Write of the two-element register file self.reg; an index other than
0 or 1 raises IndexError, modelled as `none`. -/
def setReg (st : CPU) (r v : Nat) : Option CPU :=
  if r = 0 then some { st with regA := v }
  else if r = 1 then some { st with regB := v }
  else none

/-- Observable outcome of one step: the new CPU state, the returned
continue flag, the character codes written to stdout, the remaining
stdin, and the address reported on an unknown opcode (a Python int:
it can be -1). -/
structure StepOut where
  cpu : CPU
  cont : Bool
  outB : List Nat
  inp : List Nat
  err : Option Int

/-- step from emulator.py. Input is the pending stdin character codes;
`none` models the uncaught IndexError of a register index outside 0..1. -/
def step (st : CPU) (input : List Nat) : Option StepOut :=
  let opcode := st.ram st.pc
  let pc1 := (st.pc + 1) % 256
  if opcode = 0x00 then      -- NOP
    some ⟨{ st with pc := pc1 }, true, [], input, none⟩
  else if opcode = 0x10 then -- LDI reg, imm
    let r := st.ram pc1
    let pc2 := (pc1 + 1) % 256
    let imm := st.ram pc2
    let pc3 := (pc2 + 1) % 256
    (setReg { st with pc := pc3 } r (imm % 256)).map
      (fun st2 => ⟨{ st2 with zero := st2.regA == 0 }, true, [], input, none⟩)
  else if opcode = 0x11 then -- MOV reg, addr
    let r := st.ram pc1
    let pc2 := (pc1 + 1) % 256
    let a := st.ram pc2
    let pc3 := (pc2 + 1) % 256
    (setReg { st with pc := pc3 } r (st.ram a)).map
      (fun st2 => ⟨{ st2 with zero := st2.regA == 0 }, true, [], input, none⟩)
  else if opcode = 0x12 then -- STR reg, addr
    let r := st.ram pc1
    let pc2 := (pc1 + 1) % 256
    let a := st.ram pc2
    let pc3 := (pc2 + 1) % 256
    (getReg st r).map
      (fun v => ⟨writeRam { st with pc := pc3 } a (v % 256), true, [], input, none⟩)
  else if opcode = 0x20 then -- ADD r1, r2
    let r1 := st.ram pc1
    let pc2 := (pc1 + 1) % 256
    let r2 := st.ram pc2
    let pc3 := (pc2 + 1) % 256
    (getReg st r1).bind (fun v1 => (getReg st r2).map (fun v2 =>
      let st2 := { st with pc := pc3, regA := (v1 + v2) % 256 }
      ⟨{ st2 with zero := st2.regA == 0 }, true, [], input, none⟩))
  else if opcode = 0x21 then -- SUB r1, r2
    let r1 := st.ram pc1
    let pc2 := (pc1 + 1) % 256
    let r2 := st.ram pc2
    let pc3 := (pc2 + 1) % 256
    (getReg st r1).bind (fun v1 => (getReg st r2).map (fun v2 =>
      let st2 := { st with pc := pc3, regA := (((v1 : Int) - (v2 : Int)) % 256).toNat }
      ⟨{ st2 with zero := st2.regA == 0 }, true, [], input, none⟩))
  else if opcode = 0x30 then -- JMP addr
    let a := st.ram pc1
    some ⟨{ st with pc := a % 256 }, true, [], input, none⟩
  else if opcode = 0x31 then -- JZ addr
    let a := st.ram pc1
    let pc2 := (pc1 + 1) % 256
    some ⟨{ st with pc := if st.zero then a % 256 else pc2 }, true, [], input, none⟩
  else if opcode = 0x32 then -- JNZ addr
    let a := st.ram pc1
    let pc2 := (pc1 + 1) % 256
    some ⟨{ st with pc := if st.zero then pc2 else a % 256 }, true, [], input, none⟩
  else if opcode = 0x40 then -- OUT reg
    let r := st.ram pc1
    let pc2 := (pc1 + 1) % 256
    (getReg st r).map
      (fun v => ⟨{ st with pc := pc2 }, true, [v % 256], input, none⟩)
  else if opcode = 0x41 then -- IN reg
    let r := st.ram pc1
    let pc2 := (pc1 + 1) % 256
    let val := match input with | [] => 0 | c :: _ => c
    let rest := match input with | [] => ([] : List Nat) | _ :: t => t
    (setReg { st with pc := pc2 } r (val % 256)).map
      (fun st2 => ⟨{ st2 with zero := st2.regA == 0 }, true, [], rest, none⟩)
  else if opcode = 0xFF then -- HLT
    some ⟨{ st with pc := pc1 }, false, [], input, none⟩
  else                       -- unknown opcode: report self.pc - 1 and stop
    some ⟨{ st with pc := pc1 }, false, [], input, some ((pc1 : Int) - 1)⟩

/-- Fueled run loop of emulator.py: iterate step, accumulating output,
until the step asks not to continue; the final Bool tells whether the
loop actually reached a halt within the fuel (a crash also stops with
false). -/
def runFor : Nat → CPU → List Nat → List Nat → CPU × List Nat × List Nat × Bool
  | 0, st, inp, out => (st, out, inp, false)
  | fuel + 1, st, inp, out =>
    match step st inp with
    | none => (st, out, inp, false)
    | some r =>
      if r.cont then runFor fuel r.cpu r.inp (out ++ r.outB)
      else (r.cpu, out ++ r.outB, r.inp, true)

/-- A character that tokenize treats as ordinary text outside quotes and
that also survives comment stripping and str.strip: not whitespace, not a
comma, not a quote, not a semicolon. -/
def plainTok (c : Char) : Bool :=
  !(pySpace c || c == ',' || c == quoteD || c == quoteS || c == ';')

/-- The data-model well-formedness of a CPU state: program counter,
registers and all 256 RAM bytes are bytes. -/
def Inv (st : CPU) : Prop :=
  st.pc < 256 ∧ st.regA < 256 ∧ st.regB < 256 ∧ ∀ i, i < 256 → st.ram i < 256

/-- The precondition under which step never indexes the register file out
of range: every register operand byte the current instruction fetches is
0 or 1. -/
def regOperandsOK (st : CPU) : Prop :=
  (st.ram st.pc = 0x10 ∨ st.ram st.pc = 0x11 ∨ st.ram st.pc = 0x12 ∨
    st.ram st.pc = 0x40 ∨ st.ram st.pc = 0x41 →
    st.ram ((st.pc + 1) % 256) < 2) ∧
  (st.ram st.pc = 0x20 ∨ st.ram st.pc = 0x21 →
    st.ram ((st.pc + 1) % 256) < 2 ∧ st.ram (((st.pc + 1) % 256 + 1) % 256) < 2)

/-- Canonical decimal rendering of a natural number, most significant
digit first, used to build assembler source lines. -/
def natDigits (n : Nat) : List Char :=
  if h : n < 10 then [Char.ofNat (48 + n)]
  else natDigits (n / 10) ++ [Char.ofNat (48 + n % 10)]
decreasing_by exact Nat.div_lt_self (by omega) (by omega)

/-- One instruction of the machine together with a choice of operands:
registers are drawn from A and B, numeric operands from all of Nat
(the assembler reduces them modulo 256). -/
inductive Choice where
  | nop
  | hlt
  | ldi (r : Fin 2) (v : Nat)
  | mov (r : Fin 2) (v : Nat)
  | sto (r : Fin 2) (v : Nat)
  | add (r1 r2 : Fin 2)
  | sub (r1 r2 : Fin 2)
  | jmp (v : Nat)
  | jz (v : Nat)
  | jnz (v : Nat)
  | out (r : Fin 2)
  | inp (r : Fin 2)

/-- The register token for a register index. -/
def regTok (r : Fin 2) : List Char := if r.val = 0 then ['A'] else ['B']

/-- The single assembler source line for a choice, with numeric operands
rendered in canonical decimal. -/
def srcLine : Choice → List Char
  | .nop => "NOP".toList
  | .hlt => "HLT".toList
  | .ldi r v => "LDI".toList ++ (' ' :: (regTok r ++ (',' :: natDigits v)))
  | .mov r v => "MOV".toList ++ (' ' :: (regTok r ++ (',' :: natDigits v)))
  | .sto r v => "STR".toList ++ (' ' :: (regTok r ++ (',' :: natDigits v)))
  | .add r1 r2 => "ADD".toList ++ (' ' :: (regTok r1 ++ (',' :: regTok r2)))
  | .sub r1 r2 => "SUB".toList ++ (' ' :: (regTok r1 ++ (',' :: regTok r2)))
  | .jmp v => "JMP".toList ++ (' ' :: natDigits v)
  | .jz v => "JZ".toList ++ (' ' :: natDigits v)
  | .jnz v => "JNZ".toList ++ (' ' :: natDigits v)
  | .out r => "OUT".toList ++ (' ' :: regTok r)
  | .inp r => "IN".toList ++ (' ' :: regTok r)

/-- Encoding of a choice following the section 4.1 opcode and operand
table of the specification, numeric operand bytes reduced modulo 256 as
section 4.2 prescribes for decimal operands. -/
def specEncode : Choice → List Nat
  | .nop => [0x00]
  | .hlt => [0xFF]
  | .ldi r v => [0x10, r.val, v % 256]
  | .mov r v => [0x11, r.val, v % 256]
  | .sto r v => [0x12, r.val, v % 256]
  | .add r1 r2 => [0x20, r1.val, r2.val]
  | .sub r1 r2 => [0x21, r1.val, r2.val]
  | .jmp v => [0x30, v % 256]
  | .jz v => [0x31, v % 256]
  | .jnz v => [0x32, v % 256]
  | .out r => [0x40, r.val]
  | .inp r => [0x41, r.val]

/-- The observable machine state after one step: register A, register B,
zero flag, program counter, and the continue flag. -/
def stepObs (o : StepOut) : Nat × Nat × Bool × Nat × Bool :=
  (o.cpu.regA, o.cpu.regB, o.cpu.zero, o.cpu.pc, o.cont)

/-- The register, zero-flag, program-counter and continue observables
predicted by the section 4.3 transition rules for one step on the
all-zero start state with the section 4.1 image loaded at address 0.
RAM beyond the image is zero; `jz` is not taken since the zero flag
starts false and `jnz` is taken; `IN` reads the head of the pending
input, or 0 at end of input. -/
def specPredict : Choice → List Nat → Nat × Nat × Bool × Nat × Bool
  | .nop, _ => (0, 0, false, 1, true)
  | .hlt, _ => (0, 0, false, 1, false)
  | .ldi r v, _ =>
    let b := v % 256
    let a2 := if r.val = 0 then b else 0
    (a2, if r.val = 1 then b else 0, a2 == 0, 3, true)
  | .mov r v, _ =>
    let m := (specEncode (.mov r v)).getD (v % 256) 0
    let a2 := if r.val = 0 then m else 0
    (a2, if r.val = 1 then m else 0, a2 == 0, 3, true)
  | .sto _ _, _ => (0, 0, false, 3, true)
  | .add _ _, _ =>
    let a2 := (0 + 0) % 256
    (a2, 0, a2 == 0, 3, true)
  | .sub _ _, _ =>
    let a2 := (((0 : Int) - (0 : Int)) % 256).toNat
    (a2, 0, a2 == 0, 3, true)
  | .jmp v, _ => (0, 0, false, v % 256, true)
  | .jz _, _ => (0, 0, false, 2, true)
  | .jnz v, _ => (0, 0, false, v % 256, true)
  | .out _, _ => (0, 0, false, 2, true)
  | .inp r, inp =>
    let val := inp.headD 0
    let a2 := if r.val = 0 then val else 0
    (a2, if r.val = 1 then val else 0, a2 == 0, 2, true)

/-! Helper lemmas about stripping and the tokenizer loop. -/

theorem plainTok_spec {c : Char} (hc : plainTok c = true) :
    pySpace c = false ∧ c ≠ ' ' ∧ c ≠ '\t' ∧ c ≠ ',' ∧ c ≠ quoteD ∧
    c ≠ quoteS ∧ c ≠ ';' := by
  simp only [plainTok, Bool.not_eq_eq_eq_not, Bool.not_true, Bool.or_eq_false_iff,
    beq_eq_false_iff_ne, ne_eq] at hc
  obtain ⟨⟨⟨⟨hsp, h1⟩, h2⟩, h3⟩, h4⟩ := hc
  refine ⟨hsp, ?_, ?_, h1, h2, h3, h4⟩
  · intro h; subst h; simp [pySpace] at hsp
  · intro h; subst h; simp [pySpace] at hsp

theorem dropWhile_head_false {p : Char → Bool} {l : List Char}
    (h : ∀ c, l.head? = some c → p c = false) : l.dropWhile p = l := by
  cases l with
  | nil => rfl
  | cons a t => simp [List.dropWhile_cons, h a rfl]

theorem pystrip_eq_self {l : List Char}
    (h1 : ∀ c, l.head? = some c → pySpace c = false)
    (h2 : ∀ c, l.getLast? = some c → pySpace c = false) :
    pystrip l = l := by
  unfold pystrip
  rw [dropWhile_head_false h1,
    dropWhile_head_false (fun c hc => h2 c (by rwa [List.head?_reverse] at hc)),
    List.reverse_reverse]

theorem takeWhile_all {p : Char → Bool} {l : List Char}
    (h : ∀ c ∈ l, p c = true) : l.takeWhile p = l := by
  induction l with
  | nil => rfl
  | cons a t ih =>
    simp [List.takeWhile_cons, h a (by simp), ih (fun c hc => h c (by simp [hc]))]

theorem takeWhile_append_stop {p : Char → Bool} {l r : List Char} {c : Char}
    (h : ∀ x ∈ l, p x = true) (hc : p c = false) :
    (l ++ c :: r).takeWhile p = l := by
  induction l with
  | nil => simp [List.takeWhile_cons, hc]
  | cons a t ih =>
    simp [List.takeWhile_cons, h a (by simp), hc,
      ih (fun x hx => h x (by simp [hx]))]

theorem tokLoop_plain_cons (c : Char) (hc : plainTok c = true)
    (rest : List Char) (qc : Char) (cur : List Char) (acc : List (List Char)) :
    tokLoop (c :: rest) false qc cur acc = tokLoop rest false qc (cur ++ [c]) acc := by
  obtain ⟨_, h1, h2, h3, h4, h5, _⟩ := plainTok_spec hc
  simp [tokLoop, h1, h2, h3, h4, h5]

theorem tokLoop_run {ts : List Char} (h : ∀ c ∈ ts, plainTok c = true) :
    ∀ (rest : List Char) (qc : Char) (cur : List Char) (acc : List (List Char)),
      tokLoop (ts ++ rest) false qc cur acc = tokLoop rest false qc (cur ++ ts) acc := by
  induction ts with
  | nil => simp
  | cons a t ih =>
    intro rest qc cur acc
    rw [List.cons_append, tokLoop_plain_cons a (h a (by simp)),
      ih (fun c hc => h c (by simp [hc]))]
    simp

theorem tokLoop_sep_flush {c : Char} (hc : c = ' ' ∨ c = '\t' ∨ c = ',')
    {cur : List Char} (hcur : cur ≠ []) (rest : List Char) (qc : Char)
    (acc : List (List Char)) :
    tokLoop (c :: rest) false qc cur acc = tokLoop rest false qc [] (acc ++ [cur]) := by
  rcases hc with h | h | h <;> subst h <;>
    simp [tokLoop, hcur, show (' ' == quoteD || ' ' == quoteS) = false from by decide,
      show ('\t' == quoteD || '\t' == quoteS) = false from by decide,
      show (',' == quoteD || ',' == quoteS) = false from by decide]

theorem tokLoop_sep_skip {c : Char} (hc : c = ' ' ∨ c = '\t' ∨ c = ',')
    (rest : List Char) (qc : Char) (acc : List (List Char)) :
    tokLoop (c :: rest) false qc [] acc = tokLoop rest false qc [] acc := by
  rcases hc with h | h | h <;> subst h <;>
    simp [tokLoop, show (' ' == quoteD || ' ' == quoteS) = false from by decide,
      show ('\t' == quoteD || '\t' == quoteS) = false from by decide,
      show (',' == quoteD || ',' == quoteS) = false from by decide]

theorem tokLoop_end {cur : List Char} (h : cur ≠ []) (qc : Char)
    (acc : List (List Char)) :
    tokLoop [] false qc cur acc = acc ++ [cur] := by
  simp [tokLoop, h]

theorem tokLoop_quote_open {c : Char} (hc : c = quoteD ∨ c = quoteS)
    (rest : List Char) (qc : Char) (cur : List Char) (acc : List (List Char)) :
    tokLoop (c :: rest) false qc cur acc = tokLoop rest true c (cur ++ [c]) acc := by
  rcases hc with h | h <;> subst h <;> simp [tokLoop, quoteD, quoteS]

theorem tokLoop_inq_run {qc : Char} {ts : List Char} (h : ∀ c ∈ ts, c ≠ qc) :
    ∀ (rest : List Char) (cur : List Char) (acc : List (List Char)),
      tokLoop (ts ++ rest) true qc cur acc = tokLoop rest true qc (cur ++ ts) acc := by
  induction ts with
  | nil => simp
  | cons a t ih =>
    intro rest cur acc
    have ha : (a == qc) = false := by simp [h a (by simp)]
    rw [List.cons_append]
    rw [show tokLoop (a :: (t ++ rest)) true qc cur acc =
      tokLoop (t ++ rest) true qc (cur ++ [a]) acc by simp [tokLoop, ha]]
    rw [ih (fun c hc => h c (by simp [hc]))]
    simp

theorem tokLoop_inq_close (qc : Char) (rest : List Char) (cur : List Char)
    (acc : List (List Char)) :
    tokLoop (qc :: rest) true qc cur acc = tokLoop rest false qc (cur ++ [qc]) acc := by
  simp [tokLoop]

/-! Single-step equations for tokLoop, phrased on Bool conditions. -/

theorem tokLoop_step_inq_t {c qc : Char} (hc : (c == qc) = true)
    (r : List Char) (cur : List Char) (acc : List (List Char)) :
    tokLoop (c :: r) true qc cur acc = tokLoop r false qc (cur ++ [c]) acc := by
  simp [tokLoop, hc]

theorem tokLoop_step_inq_f {c qc : Char} (hc : (c == qc) = false)
    (r : List Char) (cur : List Char) (acc : List (List Char)) :
    tokLoop (c :: r) true qc cur acc = tokLoop r true qc (cur ++ [c]) acc := by
  simp [tokLoop, hc]

theorem tokLoop_step_q {c : Char} (h1 : (c == quoteD || c == quoteS) = true)
    (r : List Char) (qc : Char) (cur : List Char) (acc : List (List Char)) :
    tokLoop (c :: r) false qc cur acc = tokLoop r true c (cur ++ [c]) acc := by
  simp [tokLoop, h1]

theorem tokLoop_step_sep_e {c : Char} (h1 : (c == quoteD || c == quoteS) = false)
    (h2 : (c == ' ' || c == '\t' || c == ',') = true) {cur : List Char}
    (hce : cur.isEmpty = true) (r : List Char) (qc : Char) (acc : List (List Char)) :
    tokLoop (c :: r) false qc cur acc = tokLoop r false qc cur acc := by
  simp [tokLoop, h1, h2, hce]

theorem tokLoop_step_sep_f {c : Char} (h1 : (c == quoteD || c == quoteS) = false)
    (h2 : (c == ' ' || c == '\t' || c == ',') = true) {cur : List Char}
    (hce : cur.isEmpty = false) (r : List Char) (qc : Char) (acc : List (List Char)) :
    tokLoop (c :: r) false qc cur acc = tokLoop r false qc [] (acc ++ [cur]) := by
  simp [tokLoop, h1, h2, hce]

theorem tokLoop_step_plain {c : Char} (h1 : (c == quoteD || c == quoteS) = false)
    (h2 : (c == ' ' || c == '\t' || c == ',') = false)
    (r : List Char) (qc : Char) (cur : List Char) (acc : List (List Char)) :
    tokLoop (c :: r) false qc cur acc = tokLoop r false qc (cur ++ [c]) acc := by
  simp [tokLoop, h1, h2]

/-- tokLoop only ever appends to the already-emitted token list. -/
theorem tokLoop_acc (rest : List Char) :
    ∀ (inq : Bool) (qc : Char) (cur : List Char) (acc : List (List Char)),
      tokLoop rest inq qc cur acc = acc ++ tokLoop rest inq qc cur [] := by
  induction rest with
  | nil =>
    intro inq qc cur acc
    show (if cur.isEmpty then acc else acc ++ [cur]) =
      acc ++ (if cur.isEmpty then ([] : List (List Char)) else [] ++ [cur])
    cases hce : cur.isEmpty <;> simp [hce]
  | cons c r ih =>
    intro inq qc cur acc
    cases inq with
    | true =>
      cases hc : c == qc with
      | true => rw [tokLoop_step_inq_t hc, tokLoop_step_inq_t hc, ih]
      | false => rw [tokLoop_step_inq_f hc, tokLoop_step_inq_f hc, ih]
    | false =>
      cases h1 : (c == quoteD || c == quoteS) with
      | true => rw [tokLoop_step_q h1, tokLoop_step_q h1, ih]
      | false =>
        cases h2 : (c == ' ' || c == '\t' || c == ',') with
        | true =>
          cases hce : cur.isEmpty with
          | true => rw [tokLoop_step_sep_e h1 h2 hce, tokLoop_step_sep_e h1 h2 hce, ih]
          | false =>
            rw [tokLoop_step_sep_f h1 h2 hce, tokLoop_step_sep_f h1 h2 hce,
              ih false qc [] (acc ++ [cur]), ih false qc [] ([] ++ [cur])]
            simp
        | false => rw [tokLoop_step_plain h1 h2, tokLoop_step_plain h1 h2, ih]

/-- From a nonempty current token, the output starts (after the already
emitted tokens) with a single token extending that current token: the
accumulated characters are never split apart or dropped. -/
theorem tokLoop_cur_lands (rest : List Char) :
    ∀ (inq : Bool) (qc : Char) (cur : List Char) (acc : List (List Char)),
      cur ≠ [] →
      ∃ ext rests, tokLoop rest inq qc cur acc = acc ++ ((cur ++ ext) :: rests) := by
  induction rest with
  | nil =>
    intro inq qc cur acc hcur
    have hce : cur.isEmpty = false := by
      cases cur with
      | nil => exact absurd rfl hcur
      | cons a t => rfl
    refine ⟨[], [], ?_⟩
    show (if cur.isEmpty then acc else acc ++ [cur]) = acc ++ [cur ++ []]
    simp [hce]
  | cons c r ih =>
    intro inq qc cur acc hcur
    cases inq with
    | true =>
      cases hc : c == qc with
      | true =>
        obtain ⟨ext, rests, h⟩ := ih false qc (cur ++ [c]) acc (by simp)
        exact ⟨[c] ++ ext, rests, by rw [tokLoop_step_inq_t hc, h]; simp⟩
      | false =>
        obtain ⟨ext, rests, h⟩ := ih true qc (cur ++ [c]) acc (by simp)
        exact ⟨[c] ++ ext, rests, by rw [tokLoop_step_inq_f hc, h]; simp⟩
    | false =>
      cases h1 : (c == quoteD || c == quoteS) with
      | true =>
        obtain ⟨ext, rests, h⟩ := ih true c (cur ++ [c]) acc (by simp)
        exact ⟨[c] ++ ext, rests, by rw [tokLoop_step_q h1, h]; simp⟩
      | false =>
        cases h2 : (c == ' ' || c == '\t' || c == ',') with
        | true =>
          have hce : cur.isEmpty = false := by
            cases cur with
            | nil => exact absurd rfl hcur
            | cons a t => rfl
          refine ⟨[], tokLoop r false qc [] [], ?_⟩
          rw [tokLoop_step_sep_f h1 h2 hce, tokLoop_acc r false qc [] (acc ++ [cur])]
          simp
        | false =>
          obtain ⟨ext, rests, h⟩ := ih false qc (cur ++ [c]) acc (by simp)
          exact ⟨[c] ++ ext, rests, by rw [tokLoop_step_plain h1 h2, h]; simp⟩

/-- Processing characters that contain no quote of either kind keeps the
scanner out of the in-quote state, whatever tokens it flushes meanwhile. -/
theorem tokLoop_noquote (X : List Char) (hX : ∀ c ∈ X, c ≠ quoteD ∧ c ≠ quoteS) :
    ∀ (rest : List Char) (qc : Char) (cur : List Char) (acc : List (List Char)),
      ∃ cur2 acc2, tokLoop (X ++ rest) false qc cur acc =
        tokLoop rest false qc cur2 acc2 := by
  induction X with
  | nil => intro rest qc cur acc; exact ⟨cur, acc, rfl⟩
  | cons c t ih =>
    intro rest qc cur acc
    have h1 : (c == quoteD || c == quoteS) = false := by
      simp [(hX c (by simp)).1, (hX c (by simp)).2]
    have hXt : ∀ x ∈ t, x ≠ quoteD ∧ x ≠ quoteS := fun x hx => hX x (by simp [hx])
    rw [List.cons_append]
    cases h2 : (c == ' ' || c == '\t' || c == ',') with
    | true =>
      cases hce : cur.isEmpty with
      | true =>
        rw [tokLoop_step_sep_e h1 h2 hce]
        exact ih hXt rest qc cur acc
      | false =>
        rw [tokLoop_step_sep_f h1 h2 hce]
        exact ih hXt rest qc [] (acc ++ [cur])
    | false =>
      rw [tokLoop_step_plain h1 h2]
      exact ih hXt rest qc (cur ++ [c]) acc

theorem takeWhile_append_all {p : Char → Bool} {X Y : List Char}
    (h : ∀ x ∈ X, p x = true) : (X ++ Y).takeWhile p = X ++ Y.takeWhile p := by
  induction X with
  | nil => simp
  | cons a t ih =>
    simp [List.takeWhile_cons, h a (by simp), ih (fun x hx => h x (by simp [hx]))]

theorem dropWhile_append_head {p : Char → Bool} {Y : List Char}
    (hY : ∀ c, Y.head? = some c → p c = false) (X : List Char) :
    (X ++ Y).dropWhile p = X.dropWhile p ++ Y := by
  induction X with
  | nil => simp [dropWhile_head_false hY]
  | cons a t ih =>
    cases ha : p a with
    | true => simp [List.dropWhile_cons, ha, ih]
    | false => simp [List.dropWhile_cons, ha]

/-! Helper lemmas about the register file. -/

theorem optAll_setReg_zero (X : CPU) (r v : Nat) (c : Bool) (ob inp2 : List Nat)
    (e : Option Int) :
    (((setReg X r v).map
      (fun st2 => (⟨{ st2 with zero := st2.regA == 0 }, c, ob, inp2, e⟩ : StepOut))).all
        (fun (o : StepOut) => o.cpu.zero == (o.cpu.regA == 0))) = true := by
  unfold setReg
  by_cases h0 : r = 0 <;> by_cases h1 : r = 1 <;> simp [h0, h1]

theorem setReg_isSome (st : CPU) (v : Nat) {r : Nat} (hr : r < 2) :
    (setReg st r v).isSome = true := by
  unfold setReg
  interval_cases r <;> simp

theorem getReg_isSome (st : CPU) {r : Nat} (hr : r < 2) :
    (getReg st r).isSome = true := by
  unfold getReg
  interval_cases r <;> simp

theorem setReg_inv {st1 st2 : CPU} {r v : Nat} (hs : setReg st1 r v = some st2)
    (hpc : st1.pc < 256) (hA : st1.regA < 256) (hB : st1.regB < 256)
    (hram : ∀ i, i < 256 → st1.ram i < 256) (hv : v < 256) : Inv st2 := by
  unfold setReg at hs
  by_cases h0 : r = 0
  · rw [if_pos h0] at hs
    injection hs with hs
    subst hs
    exact ⟨hpc, hv, hB, hram⟩
  rw [if_neg h0] at hs
  by_cases h1 : r = 1
  · rw [if_pos h1] at hs
    injection hs with hs
    subst hs
    exact ⟨hpc, hA, hv, hram⟩
  rw [if_neg h1] at hs
  exact absurd hs (by simp)

theorem load_bin_inv (data : List Nat) :
    ∀ (st : CPU) (addr : Nat), Inv st → Inv (load_bin st data addr) := by
  induction data with
  | nil => intro st addr h; exact h
  | cons b rest ih =>
    intro st addr h
    apply ih
    refine ⟨h.1, h.2.1, h.2.2.1, ?_⟩
    intro i hi
    simp only [writeRam]
    split
    · exact Nat.mod_lt _ (by norm_num)
    · exact h.2.2.2 i hi

/-! Helper lemmas about natDigits, line parsing and image loading. -/

theorem natDigits_ne_nil (n : Nat) : natDigits n ≠ [] := by
  unfold natDigits
  split <;> simp

theorem natDigits_plain (n : Nat) : ∀ c ∈ natDigits n, plainTok c = true := by
  induction n using Nat.strong_induction_on with
  | _ n ih =>
    unfold natDigits
    split
    · next h =>
      intro c hc
      simp only [List.mem_singleton] at hc
      subst hc
      interval_cases n <;> decide
    · next h =>
      intro c hc
      rw [List.mem_append] at hc
      rcases hc with hc | hc
      · exact ih (n / 10) (Nat.div_lt_self (by omega) (by omega)) c hc
      · simp only [List.mem_singleton] at hc
        subst hc
        have h10 : n % 10 < 10 := Nat.mod_lt _ (by omega)
        generalize hd : n % 10 = d at h10 ⊢
        interval_cases d <;> decide

theorem natDigits_digit (n : Nat) : ∀ c ∈ natDigits n, isDigitC c = true := by
  induction n using Nat.strong_induction_on with
  | _ n ih =>
    unfold natDigits
    split
    · next h =>
      intro c hc
      simp only [List.mem_singleton] at hc
      subst hc
      interval_cases n <;> decide
    · next h =>
      intro c hc
      rw [List.mem_append] at hc
      rcases hc with hc | hc
      · exact ih (n / 10) (Nat.div_lt_self (by omega) (by omega)) c hc
      · simp only [List.mem_singleton] at hc
        subst hc
        have h10 : n % 10 < 10 := Nat.mod_lt _ (by omega)
        generalize hd : n % 10 = d at h10 ⊢
        interval_cases d <;> decide

theorem natDigits_no_x (n : Nat) : 'x' ∉ natDigits n := by
  intro hmem
  have := natDigits_digit n 'x' hmem
  simp [isDigitC] at this

theorem natDigits_head (n : Nat) :
    ∃ d, d ≤ 9 ∧ (natDigits n).head? = some (Char.ofNat (48 + d)) := by
  induction n using Nat.strong_induction_on with
  | _ n ih =>
    unfold natDigits
    split
    · next h => exact ⟨n, by omega, rfl⟩
    · next h =>
      obtain ⟨d, hd, hh⟩ := ih (n / 10) (Nat.div_lt_self (by omega) (by omega))
      refine ⟨d, hd, ?_⟩
      cases hnd : natDigits (n / 10) with
      | nil => exact absurd hnd (natDigits_ne_nil _)
      | cons a t =>
        rw [hnd] at hh
        simp at hh
        simp [hh]

theorem natDigits_last (n : Nat) :
    ∃ d, d ≤ 9 ∧ (natDigits n).getLast? = some (Char.ofNat (48 + d)) := by
  unfold natDigits
  split
  · next h => exact ⟨n, by omega, rfl⟩
  · next h =>
    refine ⟨n % 10, by omega, ?_⟩
    rw [List.getLast?_append_of_ne_nil _ (by simp)]
    rfl

theorem parseDec_natDigits (n : Nat) : parseDec (natDigits n) = n := by
  induction n using Nat.strong_induction_on with
  | _ n ih =>
    unfold natDigits
    split
    · next h =>
      show parseDec [Char.ofNat (48 + n)] = n
      interval_cases n <;> decide
    · next h =>
      rw [show parseDec (natDigits (n / 10) ++ [Char.ofNat (48 + n % 10)]) =
          10 * parseDec (natDigits (n / 10)) + decDigit (Char.ofNat (48 + n % 10)) from by
        unfold parseDec
        rw [List.foldl_append]
        rfl]
      rw [ih (n / 10) (Nat.div_lt_self (by omega) (by omega))]
      have hdd : decDigit (Char.ofNat (48 + n % 10)) = n % 10 := by
        have h10 : n % 10 < 10 := Nat.mod_lt _ (by omega)
        generalize hd : n % 10 = d at h10 ⊢
        interval_cases d <;> decide
      rw [hdd]
      omega

theorem dropWhile_all_false {p : Char → Bool} {l : List Char}
    (h : ∀ c ∈ l, p c = false) : l.dropWhile p = l := by
  induction l with
  | nil => rfl
  | cons a t _ => simp [List.dropWhile_cons, h a (by simp)]

theorem pystrip_of_plain {l : List Char} (h : ∀ c ∈ l, plainTok c = true) :
    pystrip l = l := by
  unfold pystrip
  rw [dropWhile_all_false (fun c hc => (plainTok_spec (h c hc)).1),
    dropWhile_all_false (fun c hc =>
      (plainTok_spec (h c (List.mem_reverse.mp hc))).1),
    List.reverse_reverse]

theorem pystrip_eq_self_of_ends {l : List Char} {c1 c2 : Char}
    (h1 : l.head? = some c1) (h2 : l.getLast? = some c2)
    (hc1 : pySpace c1 = false) (hc2 : pySpace c2 = false) : pystrip l = l := by
  apply pystrip_eq_self
  · intro c hc
    rw [h1] at hc
    injection hc with hc
    subst hc
    exact hc1
  · intro c hc
    rw [h2] at hc
    injection hc with hc
    subst hc
    exact hc2

theorem head?_append_left {l l2 : List Char} {c : Char} (h : l.head? = some c) :
    (l ++ l2).head? = some c := by
  cases l with
  | nil => simp at h
  | cons a t => simpa using h

theorem tokLoop_run_end {ts : List Char} (h : ∀ c ∈ ts, plainTok c = true)
    {cur : List Char} (hne : cur ++ ts ≠ []) (qc : Char) (acc : List (List Char)) :
    tokLoop ts false qc cur acc = acc ++ [cur ++ ts] := by
  have h2 := tokLoop_run h [] qc cur acc
  rw [List.append_nil] at h2
  rw [h2, tokLoop_end hne]

theorem plain_ne_semi {l : List Char} (h : ∀ c ∈ l, plainTok c = true) :
    ∀ x ∈ l, (!(x == ';')) = true := by
  intro x hx
  simp [(plainTok_spec (h x hx)).2.2.2.2.2.2]

theorem tokenize_two {m ds : List Char}
    (hm : ∀ c ∈ m, plainTok c = true) (hds : ∀ c ∈ ds, plainTok c = true)
    (hm0 : m ≠ []) (hd0 : ds ≠ []) :
    tokenize (m ++ (' ' :: ds)) = [m, ds] := by
  have hall : ∀ x ∈ m ++ (' ' :: ds), (!(x == ';')) = true := by
    intro x hx
    rw [List.mem_append] at hx
    rcases hx with hx | hx
    · exact plain_ne_semi hm x hx
    · rw [List.mem_cons] at hx
      rcases hx with hx | hx
      · subst hx; decide
      · exact plain_ne_semi hds x hx
  have hstrip : pystrip (m ++ (' ' :: ds)) = m ++ (' ' :: ds) := by
    obtain ⟨a, t, rfl⟩ : ∃ a t, m = a :: t := by
      cases m with
      | nil => exact absurd rfl hm0
      | cons a t => exact ⟨a, t, rfl⟩
    have h1 : ((a :: t) ++ (' ' :: ds)).head? = some a := rfl
    have h2 : ((a :: t) ++ (' ' :: ds)).getLast? = some (ds.getLast hd0) := by
      rw [show (a :: t) ++ (' ' :: ds) = ((a :: t) ++ [' ']) ++ ds by simp]
      rw [List.getLast?_append_of_ne_nil _ hd0]
      exact List.getLast?_eq_getLast_of_ne_nil hd0
    exact pystrip_eq_self_of_ends h1 h2 (plainTok_spec (hm a (by simp))).1
      (plainTok_spec (hds _ (List.getLast_mem hd0))).1
  unfold tokenize
  rw [takeWhile_all hall, hstrip]
  rw [tokLoop_run hm]
  rw [tokLoop_sep_flush (Or.inl rfl) (by simpa using hm0)]
  rw [tokLoop_run_end hds (by simpa using hd0)]
  simp

theorem tokenize_three {m t ds : List Char}
    (hm : ∀ c ∈ m, plainTok c = true) (ht : ∀ c ∈ t, plainTok c = true)
    (hds : ∀ c ∈ ds, plainTok c = true)
    (hm0 : m ≠ []) (ht0 : t ≠ []) (hd0 : ds ≠ []) :
    tokenize (m ++ (' ' :: (t ++ (',' :: ds)))) = [m, t, ds] := by
  have hall : ∀ x ∈ m ++ (' ' :: (t ++ (',' :: ds))), (!(x == ';')) = true := by
    intro x hx
    rw [List.mem_append] at hx
    rcases hx with hx | hx
    · exact plain_ne_semi hm x hx
    rw [List.mem_cons] at hx
    rcases hx with hx | hx
    · subst hx; decide
    rw [List.mem_append] at hx
    rcases hx with hx | hx
    · exact plain_ne_semi ht x hx
    rw [List.mem_cons] at hx
    rcases hx with hx | hx
    · subst hx; decide
    · exact plain_ne_semi hds x hx
  have hstrip : pystrip (m ++ (' ' :: (t ++ (',' :: ds)))) =
      m ++ (' ' :: (t ++ (',' :: ds))) := by
    obtain ⟨a, t2, rfl⟩ : ∃ a t2, m = a :: t2 := by
      cases m with
      | nil => exact absurd rfl hm0
      | cons a t2 => exact ⟨a, t2, rfl⟩
    have h1 : ((a :: t2) ++ (' ' :: (t ++ (',' :: ds)))).head? = some a := rfl
    have h2 : ((a :: t2) ++ (' ' :: (t ++ (',' :: ds)))).getLast? =
        some (ds.getLast hd0) := by
      rw [show (a :: t2) ++ (' ' :: (t ++ (',' :: ds))) =
        (((a :: t2) ++ (' ' :: t)) ++ [',']) ++ ds by simp]
      rw [List.getLast?_append_of_ne_nil _ hd0]
      exact List.getLast?_eq_getLast_of_ne_nil hd0
    exact pystrip_eq_self_of_ends h1 h2 (plainTok_spec (hm a (by simp))).1
      (plainTok_spec (hds _ (List.getLast_mem hd0))).1
  unfold tokenize
  rw [takeWhile_all hall, hstrip]
  rw [tokLoop_run hm]
  rw [tokLoop_sep_flush (Or.inl rfl) (by simpa using hm0)]
  rw [tokLoop_run ht]
  rw [tokLoop_sep_flush (Or.inr (Or.inr rfl)) (by simpa using ht0)]
  rw [tokLoop_run_end hds (by simpa using hd0)]
  simp

theorem parse_value_natDigits (n : Nat) (labels : LabelTable) :
    parse_value (natDigits n) labels = some (n % 256) := by
  unfold parse_value
  rw [pystrip_of_plain (natDigits_plain n)]
  obtain ⟨d1, hd1, hh⟩ := natDigits_head n
  rw [if_neg ?hq, if_neg ?hhex, if_pos ?hdig, if_neg ?hneg, parseDec_natDigits]
  case hq =>
    intro hc
    rw [hh] at hc
    have h3 := hc.1
    injection h3 with h3
    revert h3
    interval_cases d1 <;> decide
  case hhex =>
    intro hc
    have hx : 'x' ∈ (natDigits n).take 2 := by rw [hc]; simp
    exact natDigits_no_x n (List.mem_of_mem_take hx)
  case hdig =>
    left
    unfold isdigitStr
    rw [Bool.and_eq_true]
    constructor
    · cases hn : natDigits n with
      | nil => exact absurd hn (natDigits_ne_nil n)
      | cons a t => rfl
    · rw [List.all_eq_true]
      exact natDigits_digit n
  case hneg =>
    rw [hh]
    intro hc
    injection hc with hc
    revert hc
    interval_cases d1 <;> decide

theorem pass1_single {l t0 : List Char} {targs : List (List Char)} {sz : Nat}
    (hstrip : pystrip l = l) (hne : l ≠ []) (hh : l.head? ≠ some ';')
    (hl : l.getLast? ≠ some ':') (htok : tokenize l = t0 :: targs)
    (hsz : instrSize (pyupper t0) targs = some sz) :
    pass1 [l] 0 [] [] = some ([], [⟨0, pyupper t0, targs⟩]) := by
  show pass1 (l :: []) 0 [] [] = _
  rw [pass1]
  rw [hstrip]
  rw [if_neg (by simpa using hne), if_neg hh, if_neg hl, htok]
  simp [hsz, pass1]

theorem pass2_single (labels : LabelTable) (p : Parsed) :
    pass2 labels [p] = emit1 labels p := by
  show (emit1 labels p).bind (fun b => (some (α := List Nat) []).bind
    (fun r => some (b ++ r))) = emit1 labels p
  cases emit1 labels p <;> simp

theorem assemble_single {l : List Char} {p : Parsed}
    (h1 : pass1 [l] 0 [] [] = some ([], [p])) :
    assemble [l] = emit1 [] p := by
  unfold assemble
  rw [h1]
  show pass2 [] [p] = emit1 [] p
  exact pass2_single [] p

theorem load_bin_ram_out (bs : List Nat) :
    ∀ (st : CPU) (addr i : Nat), addr + bs.length ≤ 256 →
      (i < addr ∨ addr + bs.length ≤ i) →
      (load_bin st bs addr).ram i = st.ram i := by
  induction bs with
  | nil => intro st addr i _ _; rfl
  | cons b rest ih =>
    intro st addr i hlen hout
    show (load_bin (writeRam st (addr % 256) (b % 256)) rest (addr + 1)).ram i = st.ram i
    rw [ih _ (addr + 1) i (by simp at hlen ⊢; omega)
      (by simp at hlen hout ⊢; omega)]
    have ha : addr % 256 = addr := Nat.mod_eq_of_lt (by simp at hlen; omega)
    simp only [writeRam, ha]
    rw [if_neg (by simp at hout; omega)]

theorem load_bin_ram_in (bs : List Nat) :
    ∀ (st : CPU) (addr i : Nat), addr + bs.length ≤ 256 → addr ≤ i →
      i < addr + bs.length →
      (load_bin st bs addr).ram i = bs.getD (i - addr) 0 % 256 := by
  induction bs with
  | nil => intro st addr i _ h1 h2; simp at h2; omega
  | cons b rest ih =>
    intro st addr i hlen h1 h2
    show (load_bin (writeRam st (addr % 256) (b % 256)) rest (addr + 1)).ram i = _
    by_cases hi : i = addr
    · subst hi
      rw [load_bin_ram_out rest _ (i + 1) i (by simp at hlen ⊢; omega)
        (Or.inl (by omega))]
      have ha : i % 256 = i := Nat.mod_eq_of_lt (by simp at hlen; omega)
      simp only [writeRam, ha]
      simp
    · have h1b : i - addr = (i - (addr + 1)) + 1 := by omega
      rw [ih _ (addr + 1) i (by simp at hlen ⊢; omega) (by omega)
        (by simp at hlen h2 ⊢; omega), h1b]
      rfl

theorem load_bin_cpu0_ram (bs : List Nat) (hlen : bs.length ≤ 256)
    (hb : ∀ x ∈ bs, x < 256) (i : Nat) :
    (load_bin cpu0 bs 0).ram i = bs.getD i 0 := by
  by_cases hi : i < bs.length
  · rw [load_bin_ram_in bs cpu0 0 i (by omega) (by omega) (by omega)]
    simp only [Nat.sub_zero]
    apply Nat.mod_eq_of_lt
    rw [List.getD_eq_getElem?_getD]
    rw [List.getElem?_eq_getElem hi]
    exact hb _ (List.getElem_mem hi)
  · rw [load_bin_ram_out bs cpu0 0 i (by omega) (Or.inr (by omega))]
    rw [List.getD_eq_getElem?_getD, List.getElem?_eq_none (by omega)]
    rfl

theorem pass1_mnem_num3 (mn t : List Char) (v sz : Nat)
    (hm : ∀ c ∈ mn, plainTok c = true) (ht : ∀ c ∈ t, plainTok c = true)
    (hm0 : mn ≠ []) (ht0 : t ≠ [])
    (hsz : instrSize (pyupper mn) [t, natDigits v] = some sz) :
    pass1 [mn ++ (' ' :: (t ++ (',' :: natDigits v)))] 0 [] [] =
      some ([], [⟨0, pyupper mn, [t, natDigits v]⟩]) := by
  obtain ⟨a, t2, rfl⟩ : ∃ a t2, mn = a :: t2 := by
    cases mn with
    | nil => exact absurd rfl hm0
    | cons a t2 => exact ⟨a, t2, rfl⟩
  obtain ⟨d, hd, hlast⟩ := natDigits_last v
  have h1 : ((a :: t2) ++ (' ' :: (t ++ (',' :: natDigits v)))).head? = some a := rfl
  have h2a : ((a :: t2) ++ (' ' :: (t ++ (',' :: natDigits v)))).getLast? =
      (natDigits v).getLast? := by
    rw [show (a :: t2) ++ (' ' :: (t ++ (',' :: natDigits v))) =
      (((a :: t2) ++ (' ' :: t)) ++ [',']) ++ natDigits v by simp]
    exact List.getLast?_append_of_ne_nil _ (natDigits_ne_nil v)
  have h2 : ((a :: t2) ++ (' ' :: (t ++ (',' :: natDigits v)))).getLast? =
      some (Char.ofNat (48 + d)) := h2a.trans hlast
  apply pass1_single
  · exact pystrip_eq_self_of_ends h1 h2 (plainTok_spec (hm a (by simp))).1
      (by interval_cases d <;> decide)
  · simp
  · intro hcon
    rw [h1] at hcon
    injection hcon with hcon
    exact absurd hcon (plainTok_spec (hm a (by simp))).2.2.2.2.2.2
  · intro hcon
    have h3 := h2.symm.trans hcon
    injection h3 with h3
    revert h3
    interval_cases d <;> decide
  · exact tokenize_three hm ht (natDigits_plain v) hm0 ht0 (natDigits_ne_nil v)
  · exact hsz

theorem pass1_mnem_num2 (mn : List Char) (v sz : Nat)
    (hm : ∀ c ∈ mn, plainTok c = true) (hm0 : mn ≠ [])
    (hsz : instrSize (pyupper mn) [natDigits v] = some sz) :
    pass1 [mn ++ (' ' :: natDigits v)] 0 [] [] =
      some ([], [⟨0, pyupper mn, [natDigits v]⟩]) := by
  obtain ⟨a, t2, rfl⟩ : ∃ a t2, mn = a :: t2 := by
    cases mn with
    | nil => exact absurd rfl hm0
    | cons a t2 => exact ⟨a, t2, rfl⟩
  obtain ⟨d, hd, hlast⟩ := natDigits_last v
  have h1 : ((a :: t2) ++ (' ' :: natDigits v)).head? = some a := rfl
  have h2a : ((a :: t2) ++ (' ' :: natDigits v)).getLast? =
      (natDigits v).getLast? := by
    rw [show (a :: t2) ++ (' ' :: natDigits v) =
      ((a :: t2) ++ [' ']) ++ natDigits v by simp]
    exact List.getLast?_append_of_ne_nil _ (natDigits_ne_nil v)
  have h2 : ((a :: t2) ++ (' ' :: natDigits v)).getLast? =
      some (Char.ofNat (48 + d)) := h2a.trans hlast
  apply pass1_single
  · exact pystrip_eq_self_of_ends h1 h2 (plainTok_spec (hm a (by simp))).1
      (by interval_cases d <;> decide)
  · simp
  · intro hcon
    rw [h1] at hcon
    injection hcon with hcon
    exact absurd hcon (plainTok_spec (hm a (by simp))).2.2.2.2.2.2
  · intro hcon
    have h3 := h2.symm.trans hcon
    injection h3 with h3
    revert h3
    interval_cases d <;> decide
  · exact tokenize_two hm (natDigits_plain v) hm0 (natDigits_ne_nil v)
  · exact hsz

/-! Claim theorems. -/

/-- C3: assembling the program LDI A,65 / OUT A / HLT produces exactly the
bytes 10 00 41 40 00 FF, and running the emulator on that image from
address 0 emits the single character A (code 65) and then halts with
register A = 65 and zero flag false. -/
theorem c3_concrete_scenario :
    assemble ["LDI A,65".toList, "OUT A".toList, "HLT".toList] =
      some [0x10, 0x00, 0x41, 0x40, 0x00, 0xFF] ∧
    ((runFor 3 (load_bin cpu0 [0x10, 0x00, 0x41, 0x40, 0x00, 0xFF] 0) [] []).2.1 = [65] ∧
     (runFor 3 (load_bin cpu0 [0x10, 0x00, 0x41, 0x40, 0x00, 0xFF] 0) [] []).2.2.2 = true ∧
     (runFor 3 (load_bin cpu0 [0x10, 0x00, 0x41, 0x40, 0x00, 0xFF] 0) [] []).1.regA = 65 ∧
     (runFor 3 (load_bin cpu0 [0x10, 0x00, 0x41, 0x40, 0x00, 0xFF] 0) [] []).1.zero = false) := by
  refine ⟨by decide, by decide, by decide, by decide, by decide⟩

/-- C2 is false of the code: on the program DB 0, 0 / L: / JMP L, pass 1
advances the counter by only 1 for the DB line (tokenize already consumed
the comma, so the join-and-split-on-comma count sees a single operand) and
binds L to address 1, while pass 2 emits two bytes for that DB, so L's
offset in the emitted byte sequence is 2 and the JMP operand byte is the
wrong address 1. -/
theorem c2_db_size_bug :
    pass1 ["DB 0, 0".toList, "L:".toList, "JMP L".toList] 0 [] [] =
      some ([("L".toList, 1)],
        [⟨0, "DB".toList, ["0".toList, "0".toList]⟩, ⟨1, "JMP".toList, ["L".toList]⟩]) ∧
    assemble ["DB 0, 0".toList, "L:".toList, "JMP L".toList] = some [0, 0, 0x30, 1] := by
  refine ⟨by decide, by decide⟩

/-- C4 is false of the code at address 255: an unknown opcode does halt the
run (continue = false), but the reported address is self.pc - 1 computed
after the wrapping increment, so a fetch at address 255 is reported as the
Python integer -1 rather than 255. -/
theorem c4_unknown_opcode_wrap_bug :
    (step { cpu0 with ram := fun i => if i = 255 then 5 else 0, pc := 255 } []).map
      (fun r => (r.cont, r.err)) = some (false, some (-1)) := by
  decide

/-- C8 as stated is false at the line DB "a;b": the comment split happens
before quote handling, so the semicolon inside the quoted token is not
kept together with it and the quoted token "a;b" is never produced. -/
theorem c8_quoted_semicolon_counterexample :
    tokenize "DB \"a;b\"".toList ≠ ["DB".toList, "\"a;b\"".toList] := by
  decide

/-- C8 amended: tokenization strips everything from the first semicolon
onward even when that semicolon sits inside quotes; within the surviving
text, the characters of a token enclosed in quotes of either kind, the
enclosed whitespace and commas included, land together inside a single
emitted token: on every line of the form pre ++ quoted run ++ post whose
quoted run survives the comment cut intact, some output token contains the
whole quoted run contiguously. -/
theorem c8_tokenize_amended :
    (∀ l junk : List Char, ';' ∉ l → tokenize (l ++ ';' :: junk) = tokenize l) ∧
    (∀ (pre ts post : List Char) (q : Char), (q = quoteD ∨ q = quoteS) →
      ';' ∉ pre → quoteD ∉ pre → quoteS ∉ pre → ';' ∉ ts → q ∉ ts →
      ∃ tok, tok ∈ tokenize (pre ++ ((q :: (ts ++ [q])) ++ post)) ∧
        ∃ l r, tok = l ++ ((q :: (ts ++ [q])) ++ r)) := by
  constructor
  · intro l junk hl
    have hall : ∀ x ∈ l, (!(x == ';')) = true := by
      intro x hx
      have hne : x ≠ ';' := fun h => hl (h ▸ hx)
      simp [hne]
    unfold tokenize
    rw [takeWhile_append_stop hall (by decide), takeWhile_all hall]
  · intro pre ts post q hq hpre hpreD hpreS hts hqts
    have hqs : q ≠ ';' := by rcases hq with h | h <;> subst h <;> decide
    have hqsp : pySpace q = false := by rcases hq with h | h <;> subst h <;> decide
    have hqq : (q == quoteD || q == quoteS) = true := by
      rcases hq with h | h <;> subst h <;> decide
    have hcut : (pre ++ ((q :: (ts ++ [q])) ++ post)).takeWhile (fun c => !(c == ';')) =
        pre ++ ((q :: (ts ++ [q])) ++ post.takeWhile (fun c => !(c == ';'))) := by
      rw [takeWhile_append_all (fun x hx => by
        have hne : x ≠ ';' := fun he => hpre (he ▸ hx)
        simp [hne])]
      congr 1
      exact takeWhile_append_all (fun x hx => by
        have hne : x ≠ ';' := by
          rcases List.mem_cons.mp hx with h | hx2
          · subst h; exact hqs
          rcases List.mem_append.mp hx2 with h | h
          · exact fun he => hts (he ▸ h)
          · rw [List.mem_singleton] at h; subst h; exact hqs
        simp [hne])
    have hRlast : (q :: (ts ++ [q])).getLast? = some q := by
      rw [show q :: (ts ++ [q]) = [q] ++ (ts ++ [q]) from rfl]
      rw [List.getLast?_append_of_ne_nil _ (by simp)]
      rw [List.getLast?_append_of_ne_nil _ (by simp)]
      rfl
    have hRrev : (q :: (ts ++ [q])).reverse.head? = some q := by
      rw [List.head?_reverse]; exact hRlast
    have hstrip :
        pystrip (pre ++ ((q :: (ts ++ [q])) ++ post.takeWhile (fun c => !(c == ';')))) =
        pre.dropWhile pySpace ++ ((q :: (ts ++ [q])) ++
          ((post.takeWhile (fun c => !(c == ';'))).reverse.dropWhile pySpace).reverse) := by
      unfold pystrip
      rw [dropWhile_append_head (fun c hc => by
        have hqc : q = c := by
          have h2 : some q = some c := hc
          injection h2
        subst hqc
        exact hqsp) pre]
      rw [List.reverse_append, List.reverse_append, List.append_assoc]
      rw [dropWhile_append_head (fun c hc => by
        rw [head?_append_left hRrev] at hc
        injection hc with hc
        subst hc
        exact hqsp) (post.takeWhile (fun c => !(c == ';'))).reverse]
      simp
    obtain ⟨cur2, acc2, hnq⟩ := tokLoop_noquote (pre.dropWhile pySpace)
      (fun c hc =>
        ⟨fun he => hpreD ((List.dropWhile_sublist pySpace).subset (he ▸ hc)),
          fun he => hpreS ((List.dropWhile_sublist pySpace).subset (he ▸ hc))⟩)
      ((q :: (ts ++ [q])) ++
        ((post.takeWhile (fun c => !(c == ';'))).reverse.dropWhile pySpace).reverse)
      ' ' [] []
    obtain ⟨ext, rests, hland⟩ := tokLoop_cur_lands
      ((post.takeWhile (fun c => !(c == ';'))).reverse.dropWhile pySpace).reverse
      false q (((cur2 ++ [q]) ++ ts) ++ [q]) acc2 (by simp)
    have htok : tokenize (pre ++ ((q :: (ts ++ [q])) ++ post)) =
        acc2 ++ (((((cur2 ++ [q]) ++ ts) ++ [q]) ++ ext) :: rests) := by
      unfold tokenize
      rw [hcut, hstrip, hnq]
      rw [List.cons_append, tokLoop_step_q hqq]
      rw [List.append_assoc]
      rw [tokLoop_inq_run (fun c hc he => hqts (by rwa [he] at hc))]
      rw [List.singleton_append, tokLoop_inq_close]
      rw [hland]
    exact ⟨(((cur2 ++ [q]) ++ ts) ++ [q]) ++ ext, by rw [htok]; simp, cur2, ext, by simp⟩

/-- Witness for the amended C8: a line whose comment follows a plain token
loses the comment, and a single-quoted token containing a space and a comma
after the DB mnemonic and before a further operand lands whole inside one
emitted token. -/
theorem c8_tokenize_amended_witness :
    (';' ∉ "OUT A ".toList ∧
      tokenize ("OUT A ".toList ++ ';' :: " hi".toList) = tokenize "OUT A ".toList) ∧
    ((quoteS = quoteD ∨ quoteS = quoteS) ∧ ';' ∉ "DB ".toList ∧ quoteD ∉ "DB ".toList ∧
      quoteS ∉ "DB ".toList ∧ ';' ∉ "a,b c".toList ∧ quoteS ∉ "a,b c".toList ∧
      ∃ tok, tok ∈ tokenize ("DB ".toList ++
          ((quoteS :: ("a,b c".toList ++ [quoteS])) ++ " 5".toList)) ∧
        ∃ l r, tok = l ++ ((quoteS :: ("a,b c".toList ++ [quoteS])) ++ r)) :=
  ⟨⟨by decide, c8_tokenize_amended.1 _ _ (by decide)⟩,
    ⟨Or.inr rfl, by decide, by decide, by decide, by decide, by decide,
      c8_tokenize_amended.2 "DB ".toList "a,b c".toList " 5".toList quoteS (Or.inr rfl)
        (by decide) (by decide) (by decide) (by decide) (by decide)⟩⟩

/-- C5: after a completed step whose opcode is LDI (0x10), MOV (0x11) or
IN (0x41), the zero flag equals the test register A = 0 on the post-step
value of register A, also when the destination register operand selected
register B and register A was not modified. -/
theorem c5_zero_flag_tracks_regA (st : CPU) (inp : List Nat)
    (hop : st.ram st.pc = 0x10 ∨ st.ram st.pc = 0x11 ∨ st.ram st.pc = 0x41) :
    (step st inp).all (fun o => o.cpu.zero == (o.cpu.regA == 0)) = true := by
  rcases hop with h | h | h <;>
    (unfold step; rw [h]; norm_num) <;>
    exact optAll_setReg_zero ..

/-- Witness for C5: a concrete LDI B,5 instruction. -/
theorem c5_zero_flag_witness :
    ((load_bin cpu0 [0x10, 1, 5] 0).ram (load_bin cpu0 [0x10, 1, 5] 0).pc = 0x10 ∨
     (load_bin cpu0 [0x10, 1, 5] 0).ram (load_bin cpu0 [0x10, 1, 5] 0).pc = 0x11 ∨
     (load_bin cpu0 [0x10, 1, 5] 0).ram (load_bin cpu0 [0x10, 1, 5] 0).pc = 0x41) ∧
    (step (load_bin cpu0 [0x10, 1, 5] 0) []).all
      (fun o => o.cpu.zero == (o.cpu.regA == 0)) = true :=
  ⟨by decide, c5_zero_flag_tracks_regA (load_bin cpu0 [0x10, 1, 5] 0) [] (by decide)⟩

/-- C7: a step from a state whose program counter addresses a STR opcode
with register operand below 2 and byte-sized registers stores that
register into RAM at the address operand, advances the program counter by
3 modulo 256, and leaves the registers, the zero flag and every other RAM
cell unchanged. -/
theorem c7_str_effect (st : CPU) (inp : List Nat)
    (hA : st.regA < 256) (hB : st.regB < 256)
    (hop : st.ram st.pc = 0x12)
    (hr : st.ram ((st.pc + 1) % 256) < 2) :
    ∃ o, step st inp = some o ∧
      o.cont = true ∧
      o.cpu.ram (st.ram (((st.pc + 1) % 256 + 1) % 256)) =
        (if st.ram ((st.pc + 1) % 256) = 0 then st.regA else st.regB) ∧
      o.cpu.pc = (st.pc + 3) % 256 ∧
      o.cpu.regA = st.regA ∧ o.cpu.regB = st.regB ∧ o.cpu.zero = st.zero ∧
      ∀ i, i ≠ st.ram (((st.pc + 1) % 256 + 1) % 256) → o.cpu.ram i = st.ram i := by
  unfold step
  rw [hop]
  norm_num
  by_cases hr0 : st.ram ((st.pc + 1) % 256) = 0
  · rw [hr0]
    simp only [getReg, writeRam]
    norm_num [Nat.mod_eq_of_lt hA]
    intro i h1 h2
    exact absurd h2 h1
  · have hr1 : st.ram ((st.pc + 1) % 256) = 1 := by omega
    rw [hr1]
    simp only [getReg, writeRam]
    norm_num [Nat.mod_eq_of_lt hB]
    intro i h1 h2
    exact absurd h2 h1

/-- Witness for C7: STR B,7 on a fresh CPU image. -/
theorem c7_str_effect_witness :
    ((load_bin cpu0 [0x12, 1, 7] 0).regA < 256 ∧
     (load_bin cpu0 [0x12, 1, 7] 0).regB < 256 ∧
     (load_bin cpu0 [0x12, 1, 7] 0).ram (load_bin cpu0 [0x12, 1, 7] 0).pc = 0x12 ∧
     (load_bin cpu0 [0x12, 1, 7] 0).ram (((load_bin cpu0 [0x12, 1, 7] 0).pc + 1) % 256) < 2) ∧
    (∃ o, step (load_bin cpu0 [0x12, 1, 7] 0) [] = some o ∧
      o.cont = true ∧
      o.cpu.ram ((load_bin cpu0 [0x12, 1, 7] 0).ram
        ((((load_bin cpu0 [0x12, 1, 7] 0).pc + 1) % 256 + 1) % 256)) =
        (if (load_bin cpu0 [0x12, 1, 7] 0).ram
            (((load_bin cpu0 [0x12, 1, 7] 0).pc + 1) % 256) = 0 then
          (load_bin cpu0 [0x12, 1, 7] 0).regA else (load_bin cpu0 [0x12, 1, 7] 0).regB) ∧
      o.cpu.pc = ((load_bin cpu0 [0x12, 1, 7] 0).pc + 3) % 256 ∧
      o.cpu.regA = (load_bin cpu0 [0x12, 1, 7] 0).regA ∧
      o.cpu.regB = (load_bin cpu0 [0x12, 1, 7] 0).regB ∧
      o.cpu.zero = (load_bin cpu0 [0x12, 1, 7] 0).zero ∧
      ∀ i, i ≠ (load_bin cpu0 [0x12, 1, 7] 0).ram
        ((((load_bin cpu0 [0x12, 1, 7] 0).pc + 1) % 256 + 1) % 256) →
        o.cpu.ram i = (load_bin cpu0 [0x12, 1, 7] 0).ram i) :=
  ⟨⟨by decide, by decide, by decide, by decide⟩,
    c7_str_effect (load_bin cpu0 [0x12, 1, 7] 0) [] (by decide) (by decide)
      (by decide) (by decide)⟩

/-- C10: step is total whenever every register operand byte fetched for
the current instruction is 0 or 1, and it is not total without that
precondition: the state holding LDI with register operand byte 2 makes
step fail with the unguarded out-of-range register-file access. -/
theorem c10_register_operand_totality :
    (∀ (st : CPU) (inp : List Nat), regOperandsOK st → (step st inp).isSome = true) ∧
    step (load_bin cpu0 [0x10, 2, 0] 0) [] = none := by
  constructor
  · intro st inp hok
    unfold step
    dsimp only
    by_cases h1 : st.ram st.pc = 0x00
    · rw [if_pos h1]; simp
    rw [if_neg h1]
    by_cases h2 : st.ram st.pc = 0x10
    · rw [if_pos h2]
      obtain ⟨st2, hs⟩ := Option.isSome_iff_exists.mp
        (setReg_isSome _ _ (hok.1 (Or.inl h2)))
      rw [hs]; simp
    rw [if_neg h2]
    by_cases h3 : st.ram st.pc = 0x11
    · rw [if_pos h3]
      obtain ⟨st2, hs⟩ := Option.isSome_iff_exists.mp
        (setReg_isSome _ _ (hok.1 (Or.inr (Or.inl h3))))
      rw [hs]; simp
    rw [if_neg h3]
    by_cases h4 : st.ram st.pc = 0x12
    · rw [if_pos h4]
      obtain ⟨v, hs⟩ := Option.isSome_iff_exists.mp
        (getReg_isSome _ (hok.1 (Or.inr (Or.inr (Or.inl h4)))))
      rw [hs]; simp
    rw [if_neg h4]
    by_cases h5 : st.ram st.pc = 0x20
    · rw [if_pos h5]
      obtain ⟨hr1, hr2⟩ := hok.2 (Or.inl h5)
      obtain ⟨v1, hs1⟩ := Option.isSome_iff_exists.mp (getReg_isSome _ hr1)
      obtain ⟨v2, hs2⟩ := Option.isSome_iff_exists.mp (getReg_isSome _ hr2)
      rw [hs1, hs2]; simp
    rw [if_neg h5]
    by_cases h6 : st.ram st.pc = 0x21
    · rw [if_pos h6]
      obtain ⟨hr1, hr2⟩ := hok.2 (Or.inr h6)
      obtain ⟨v1, hs1⟩ := Option.isSome_iff_exists.mp (getReg_isSome _ hr1)
      obtain ⟨v2, hs2⟩ := Option.isSome_iff_exists.mp (getReg_isSome _ hr2)
      rw [hs1, hs2]; simp
    rw [if_neg h6]
    by_cases h7 : st.ram st.pc = 0x30
    · rw [if_pos h7]; simp
    rw [if_neg h7]
    by_cases h8 : st.ram st.pc = 0x31
    · rw [if_pos h8]; simp
    rw [if_neg h8]
    by_cases h9 : st.ram st.pc = 0x32
    · rw [if_pos h9]; simp
    rw [if_neg h9]
    by_cases h10 : st.ram st.pc = 0x40
    · rw [if_pos h10]
      obtain ⟨v, hs⟩ := Option.isSome_iff_exists.mp
        (getReg_isSome _ (hok.1 (Or.inr (Or.inr (Or.inr (Or.inl h10))))))
      rw [hs]; simp
    rw [if_neg h10]
    by_cases h11 : st.ram st.pc = 0x41
    · rw [if_pos h11]
      obtain ⟨st2, hs⟩ := Option.isSome_iff_exists.mp
        (setReg_isSome _ _ (hok.1 (Or.inr (Or.inr (Or.inr (Or.inr h11))))))
      rw [hs]; simp
    rw [if_neg h11]
    by_cases h12 : st.ram st.pc = 0xFF
    · rw [if_pos h12]; simp
    rw [if_neg h12]
    simp
  · rfl

/-- C6: from any well-formed state (program counter, registers and RAM
bytes all below 256), loading any byte sequence at any base address and
every completed execute-step again yield a well-formed state: all
addresses and arithmetic results are reduced modulo 256. -/
theorem c6_mod256_invariant (st : CPU) (data : List Nat) (addr : Nat)
    (inp : List Nat) (h : Inv st) :
    Inv (load_bin st data addr) ∧ ∀ o, step st inp = some o → Inv o.cpu := by
  obtain ⟨hpc, hA, hB, hram⟩ := h
  constructor
  · exact load_bin_inv data st addr ⟨hpc, hA, hB, hram⟩
  · intro o ho
    unfold step at ho
    dsimp only at ho
    by_cases h1 : st.ram st.pc = 0x00
    · rw [if_pos h1] at ho
      injection ho with ho
      subst ho
      exact ⟨Nat.mod_lt _ (by norm_num), hA, hB, hram⟩
    rw [if_neg h1] at ho
    by_cases h2 : st.ram st.pc = 0x10
    · rw [if_pos h2] at ho
      rw [Option.map_eq_some'] at ho
      obtain ⟨st2, hs, rfl⟩ := ho
      have h2i : Inv st2 := setReg_inv hs (Nat.mod_lt _ (by norm_num)) hA hB hram
        (Nat.mod_lt _ (by norm_num))
      exact ⟨h2i.1, h2i.2.1, h2i.2.2.1, h2i.2.2.2⟩
    rw [if_neg h2] at ho
    by_cases h3 : st.ram st.pc = 0x11
    · rw [if_pos h3] at ho
      rw [Option.map_eq_some'] at ho
      obtain ⟨st2, hs, rfl⟩ := ho
      have h2i : Inv st2 := setReg_inv hs (Nat.mod_lt _ (by norm_num)) hA hB hram
        (hram _ (hram _ (Nat.mod_lt _ (by norm_num))))
      exact ⟨h2i.1, h2i.2.1, h2i.2.2.1, h2i.2.2.2⟩
    rw [if_neg h3] at ho
    by_cases h4 : st.ram st.pc = 0x12
    · rw [if_pos h4] at ho
      rw [Option.map_eq_some'] at ho
      obtain ⟨v, hs, rfl⟩ := ho
      refine ⟨Nat.mod_lt _ (by norm_num), hA, hB, ?_⟩
      intro i hi
      simp only [writeRam]
      split
      · exact Nat.mod_lt _ (by norm_num)
      · exact hram i hi
    rw [if_neg h4] at ho
    by_cases h5 : st.ram st.pc = 0x20
    · rw [if_pos h5] at ho
      rw [Option.bind_eq_some] at ho
      obtain ⟨v1, hs1, ho⟩ := ho
      rw [Option.map_eq_some'] at ho
      obtain ⟨v2, hs2, rfl⟩ := ho
      exact ⟨Nat.mod_lt _ (by norm_num), Nat.mod_lt _ (by norm_num), hB, hram⟩
    rw [if_neg h5] at ho
    by_cases h6 : st.ram st.pc = 0x21
    · rw [if_pos h6] at ho
      rw [Option.bind_eq_some] at ho
      obtain ⟨v1, hs1, ho⟩ := ho
      rw [Option.map_eq_some'] at ho
      obtain ⟨v2, hs2, rfl⟩ := ho
      have hsub : (((v1 : Int) - (v2 : Int)) % 256).toNat < 256 := by omega
      exact ⟨Nat.mod_lt _ (by norm_num), hsub, hB, hram⟩
    rw [if_neg h6] at ho
    by_cases h7 : st.ram st.pc = 0x30
    · rw [if_pos h7] at ho
      injection ho with ho
      subst ho
      exact ⟨Nat.mod_lt _ (by norm_num), hA, hB, hram⟩
    rw [if_neg h7] at ho
    by_cases h8 : st.ram st.pc = 0x31
    · rw [if_pos h8] at ho
      injection ho with ho
      subst ho
      refine ⟨?_, hA, hB, hram⟩
      dsimp only
      split
      · exact Nat.mod_lt _ (by norm_num)
      · exact Nat.mod_lt _ (by norm_num)
    rw [if_neg h8] at ho
    by_cases h9 : st.ram st.pc = 0x32
    · rw [if_pos h9] at ho
      injection ho with ho
      subst ho
      refine ⟨?_, hA, hB, hram⟩
      dsimp only
      split
      · exact Nat.mod_lt _ (by norm_num)
      · exact Nat.mod_lt _ (by norm_num)
    rw [if_neg h9] at ho
    by_cases h10 : st.ram st.pc = 0x40
    · rw [if_pos h10] at ho
      rw [Option.map_eq_some'] at ho
      obtain ⟨v, hs, rfl⟩ := ho
      exact ⟨Nat.mod_lt _ (by norm_num), hA, hB, hram⟩
    rw [if_neg h10] at ho
    by_cases h11 : st.ram st.pc = 0x41
    · rw [if_pos h11] at ho
      rw [Option.map_eq_some'] at ho
      obtain ⟨st2, hs, rfl⟩ := ho
      have h2i : Inv st2 := setReg_inv hs (Nat.mod_lt _ (by norm_num)) hA hB hram
        (Nat.mod_lt _ (by norm_num))
      exact ⟨h2i.1, h2i.2.1, h2i.2.2.1, h2i.2.2.2⟩
    rw [if_neg h11] at ho
    by_cases h12 : st.ram st.pc = 0xFF
    · rw [if_pos h12] at ho
      injection ho with ho
      subst ho
      exact ⟨Nat.mod_lt _ (by norm_num), hA, hB, hram⟩
    rw [if_neg h12] at ho
    injection ho with ho
    subst ho
    exact ⟨Nat.mod_lt _ (by norm_num), hA, hB, hram⟩

set_option maxRecDepth 4000 in
/-- Witness for C6: the fresh CPU is well formed, and so is its state
after loading three bytes at base 254 and after one NOP step. -/
theorem c6_mod256_invariant_witness :
    Inv cpu0 ∧
    (Inv (load_bin cpu0 [300, 7, 255] 254) ∧
      ∀ o, step cpu0 [] = some o → Inv o.cpu) :=
  ⟨by unfold Inv; decide, c6_mod256_invariant cpu0 [300, 7, 255] 254 []
    (by unfold Inv; decide)⟩

/-! Helper lemmas for assembling a long run of NOP lines. -/

theorem pass1_nop_cons (rest : List (List Char)) (pc : Nat) (labels : LabelTable)
    (parsed : List Parsed) :
    pass1 ("NOP".toList :: rest) pc labels parsed =
      pass1 rest (pc + 1) labels (parsed ++ [⟨pc, "NOP".toList, []⟩]) := rfl

theorem pass1_nops (k : Nat) :
    ∀ (rest : List (List Char)) (pc : Nat) (labels : LabelTable) (parsed : List Parsed),
      pass1 (List.replicate k "NOP".toList ++ rest) pc labels parsed =
        pass1 rest (pc + k) labels
          (parsed ++ (List.range' pc k).map (fun a => (⟨a, "NOP".toList, []⟩ : Parsed))) := by
  induction k with
  | zero => intro rest pc labels parsed; simp
  | succ k ih =>
    intro rest pc labels parsed
    rw [List.replicate_succ, List.cons_append, pass1_nop_cons, ih]
    have harg : pc + 1 + k = pc + (k + 1) := by omega
    rw [harg, List.range'_succ]
    simp

theorem pass1_bigjmp (pcv : Nat) (labels : LabelTable) (parsed : List Parsed) :
    pass1 ["big:".toList, "JMP big".toList] pcv labels parsed =
      some (("big".toList, pcv) :: labels,
        parsed ++ [⟨pcv, "JMP".toList, ["big".toList]⟩]) := rfl

theorem emit1_nop (labels : LabelTable) (a : Nat) :
    emit1 labels ⟨a, "NOP".toList, []⟩ = some [0x00] := rfl

theorem pass2_nops (labels : LabelTable) (k : Nat) :
    ∀ (s : Nat) (rest : List Parsed),
      pass2 labels ((List.range' s k).map (fun a => (⟨a, "NOP".toList, []⟩ : Parsed)) ++ rest) =
        (pass2 labels rest).map (fun b => List.replicate k 0x00 ++ b) := by
  induction k with
  | zero =>
    intro s rest
    simp
  | succ k ih =>
    intro s rest
    rw [List.range'_succ, List.map_cons, List.cons_append]
    show ((emit1 labels ⟨s, "NOP".toList, []⟩).bind fun b =>
      (pass2 labels ((List.range' (s + 1) k).map
        (fun a => (⟨a, "NOP".toList, []⟩ : Parsed)) ++ rest)).bind fun r =>
          some (b ++ r)) = _
    rw [emit1_nop, ih]
    cases hp : pass2 labels rest with
    | none => simp
    | some br => simp [List.replicate_succ]

/-- C9: a program of n NOP lines, a label line and a JMP referring to the
label, with n above 255, binds the label to the out-of-range address n in
pass 1, assembles without error, and emits n reduced modulo 256 as the
JMP operand byte. -/
theorem c9_label_addresses_wrap (n : Nat) (h : 255 < n) :
    pass1 (List.replicate n "NOP".toList ++ ["big:".toList, "JMP big".toList]) 0 [] [] =
      some ([("big".toList, n)],
        (List.range' 0 n).map (fun a => (⟨a, "NOP".toList, []⟩ : Parsed)) ++
          [⟨n, "JMP".toList, ["big".toList]⟩]) ∧
    assemble (List.replicate n "NOP".toList ++ ["big:".toList, "JMP big".toList]) =
      some (List.replicate n 0x00 ++ [0x30, n % 256]) := by
  have hp1 : pass1 (List.replicate n "NOP".toList ++ ["big:".toList, "JMP big".toList])
      0 [] [] = some ([("big".toList, n)],
        (List.range' 0 n).map (fun a => (⟨a, "NOP".toList, []⟩ : Parsed)) ++
          [⟨n, "JMP".toList, ["big".toList]⟩]) := by
    rw [pass1_nops, pass1_bigjmp]
    simp
  refine ⟨hp1, ?_⟩
  unfold assemble
  rw [hp1]
  show pass2 [("big".toList, n)]
    ((List.range' 0 n).map (fun a => (⟨a, "NOP".toList, []⟩ : Parsed)) ++
      [⟨n, "JMP".toList, ["big".toList]⟩]) = _
  rw [pass2_nops]
  rfl

/-- Witness for C9 at n = 300: the label is bound to 300 and the emitted
JMP operand byte is 300 mod 256 = 44. -/
theorem c9_label_addresses_wrap_witness :
    255 < 300 ∧
    (pass1 (List.replicate 300 "NOP".toList ++ ["big:".toList, "JMP big".toList]) 0 [] [] =
      some ([("big".toList, 300)],
        (List.range' 0 300).map (fun a => (⟨a, "NOP".toList, []⟩ : Parsed)) ++
          [⟨300, "JMP".toList, ["big".toList]⟩]) ∧
    assemble (List.replicate 300 "NOP".toList ++ ["big:".toList, "JMP big".toList]) =
      some (List.replicate 300 0x00 ++ [0x30, 300 % 256])) :=
  ⟨by decide, c9_label_addresses_wrap 300 (by decide)⟩

/-- C1: for every mnemonic and every choice of valid operands (registers
A or B, numeric operands any natural number, rendered canonically in
decimal), assembling the single-instruction program yields exactly the
section 4.1 encoding, and one execute-step from address 0 on that image
(on the fresh all-zero CPU, with any byte input stream) yields exactly
the register, zero-flag, program-counter and continue observables that
the section 4.3 transition rules predict. -/
theorem c1_round_trip (c : Choice) (inp : List Nat) (hinp : ∀ x ∈ inp, x < 256) :
    assemble [srcLine c] = some (specEncode c) ∧
    (step (load_bin cpu0 (specEncode c) 0) inp).map stepObs =
      some (specPredict c inp) := by
  cases c with
  | nop => exact ⟨by decide, rfl⟩
  | hlt => exact ⟨by decide, rfl⟩
  | add r1 r2 => fin_cases r1 <;> fin_cases r2 <;> exact ⟨by decide, rfl⟩
  | sub r1 r2 => fin_cases r1 <;> fin_cases r2 <;> exact ⟨by decide, rfl⟩
  | out r => fin_cases r <;> exact ⟨by decide, rfl⟩
  | inp r =>
    fin_cases r
    · cases inp with
      | nil => exact ⟨by decide, rfl⟩
      | cons cH cT =>
        refine ⟨by decide, ?_⟩
        have hc : cH < 256 := hinp cH (by simp)
        have hmid : (step (load_bin cpu0 (specEncode (Choice.inp 0)) 0) (cH :: cT)).map
            stepObs = some (cH % 256, 0, cH % 256 == 0, 2, true) := rfl
        refine hmid.trans ?_
        rw [Nat.mod_eq_of_lt hc]
        rfl
    · cases inp with
      | nil => exact ⟨by decide, rfl⟩
      | cons cH cT =>
        refine ⟨by decide, ?_⟩
        have hc : cH < 256 := hinp cH (by simp)
        have hmid : (step (load_bin cpu0 (specEncode (Choice.inp 1)) 0) (cH :: cT)).map
            stepObs = some (0, cH % 256, true, 2, true) := rfl
        refine hmid.trans ?_
        rw [Nat.mod_eq_of_lt hc]
        rfl
  | ldi r v =>
    fin_cases r
    · refine ⟨?_, ?_⟩
      · show assemble ["LDI".toList ++ (' ' :: (['A'] ++ (',' :: natDigits v)))] =
          some [0x10, 0, v % 256]
        rw [assemble_single (pass1_mnem_num3 "LDI".toList ['A'] v 3 (by decide)
          (by decide) (by decide) (by decide) rfl)]
        have hpv : parse_value (pystrip (natDigits v)) [] = some (v % 256) := by
          rw [pystrip_of_plain (natDigits_plain v)]
          exact parse_value_natDigits v []
        unfold emit1
        dsimp only
        rw [hpv]
        show some [0x10, 0, v % 256 % 256] = some [0x10, 0, v % 256]
        rw [show v % 256 % 256 = v % 256 from by omega]
      · have hmid : (step (load_bin cpu0 (specEncode (Choice.ldi 0 v)) 0) inp).map
            stepObs = some (v % 256 % 256 % 256, 0, v % 256 % 256 % 256 == 0, 3, true) :=
          rfl
        refine hmid.trans ?_
        rw [show v % 256 % 256 % 256 = v % 256 from by omega]
        rfl
    · refine ⟨?_, ?_⟩
      · show assemble ["LDI".toList ++ (' ' :: (['B'] ++ (',' :: natDigits v)))] =
          some [0x10, 1, v % 256]
        rw [assemble_single (pass1_mnem_num3 "LDI".toList ['B'] v 3 (by decide)
          (by decide) (by decide) (by decide) rfl)]
        have hpv : parse_value (pystrip (natDigits v)) [] = some (v % 256) := by
          rw [pystrip_of_plain (natDigits_plain v)]
          exact parse_value_natDigits v []
        unfold emit1
        dsimp only
        rw [hpv]
        show some [0x10, 1, v % 256 % 256] = some [0x10, 1, v % 256]
        rw [show v % 256 % 256 = v % 256 from by omega]
      · have hmid : (step (load_bin cpu0 (specEncode (Choice.ldi 1 v)) 0) inp).map
            stepObs = some (0, v % 256 % 256 % 256, true, 3, true) := rfl
        refine hmid.trans ?_
        rw [show v % 256 % 256 % 256 = v % 256 from by omega]
        rfl
  | mov r v =>
    fin_cases r
    · refine ⟨?_, ?_⟩
      · show assemble ["MOV".toList ++ (' ' :: (['A'] ++ (',' :: natDigits v)))] =
          some [0x11, 0, v % 256]
        rw [assemble_single (pass1_mnem_num3 "MOV".toList ['A'] v 3 (by decide)
          (by decide) (by decide) (by decide) rfl)]
        have hpv : parse_value (pystrip (natDigits v)) [] = some (v % 256) := by
          rw [pystrip_of_plain (natDigits_plain v)]
          exact parse_value_natDigits v []
        unfold emit1
        dsimp only
        rw [hpv]
        show some [0x11, 0, v % 256 % 256] = some [0x11, 0, v % 256]
        rw [show v % 256 % 256 = v % 256 from by omega]
      · have hvb : ∀ x ∈ [0x11, 0, v % 256], x < 256 := by
          intro x hx
          simp at hx
          rcases hx with h | h | h <;> omega
        have hram := load_bin_cpu0_ram [0x11, 0, v % 256] (by simp) hvb
        have hmid : (step (load_bin cpu0 (specEncode (Choice.mov 0 v)) 0) inp).map
            stepObs = some ((load_bin cpu0 [0x11, 0, v % 256] 0).ram (v % 256 % 256), 0,
              ((load_bin cpu0 [0x11, 0, v % 256] 0).ram (v % 256 % 256)) == 0, 3, true) :=
          rfl
        refine hmid.trans ?_
        rw [show v % 256 % 256 = v % 256 from by omega, hram (v % 256)]
        rfl
    · refine ⟨?_, ?_⟩
      · show assemble ["MOV".toList ++ (' ' :: (['B'] ++ (',' :: natDigits v)))] =
          some [0x11, 1, v % 256]
        rw [assemble_single (pass1_mnem_num3 "MOV".toList ['B'] v 3 (by decide)
          (by decide) (by decide) (by decide) rfl)]
        have hpv : parse_value (pystrip (natDigits v)) [] = some (v % 256) := by
          rw [pystrip_of_plain (natDigits_plain v)]
          exact parse_value_natDigits v []
        unfold emit1
        dsimp only
        rw [hpv]
        show some [0x11, 1, v % 256 % 256] = some [0x11, 1, v % 256]
        rw [show v % 256 % 256 = v % 256 from by omega]
      · have hvb : ∀ x ∈ [0x11, 1, v % 256], x < 256 := by
          intro x hx
          simp at hx
          rcases hx with h | h | h <;> omega
        have hram := load_bin_cpu0_ram [0x11, 1, v % 256] (by simp) hvb
        have hmid : (step (load_bin cpu0 (specEncode (Choice.mov 1 v)) 0) inp).map
            stepObs = some (0, (load_bin cpu0 [0x11, 1, v % 256] 0).ram (v % 256 % 256),
              true, 3, true) := rfl
        refine hmid.trans ?_
        rw [show v % 256 % 256 = v % 256 from by omega, hram (v % 256)]
        rfl
  | sto r v =>
    fin_cases r
    · refine ⟨?_, rfl⟩
      show assemble ["STR".toList ++ (' ' :: (['A'] ++ (',' :: natDigits v)))] =
        some [0x12, 0, v % 256]
      rw [assemble_single (pass1_mnem_num3 "STR".toList ['A'] v 3 (by decide)
        (by decide) (by decide) (by decide) rfl)]
      have hpv : parse_value (pystrip (natDigits v)) [] = some (v % 256) := by
        rw [pystrip_of_plain (natDigits_plain v)]
        exact parse_value_natDigits v []
      unfold emit1
      dsimp only
      rw [hpv]
      show some [0x12, 0, v % 256 % 256] = some [0x12, 0, v % 256]
      rw [show v % 256 % 256 = v % 256 from by omega]
    · refine ⟨?_, rfl⟩
      show assemble ["STR".toList ++ (' ' :: (['B'] ++ (',' :: natDigits v)))] =
        some [0x12, 1, v % 256]
      rw [assemble_single (pass1_mnem_num3 "STR".toList ['B'] v 3 (by decide)
        (by decide) (by decide) (by decide) rfl)]
      have hpv : parse_value (pystrip (natDigits v)) [] = some (v % 256) := by
        rw [pystrip_of_plain (natDigits_plain v)]
        exact parse_value_natDigits v []
      unfold emit1
      dsimp only
      rw [hpv]
      show some [0x12, 1, v % 256 % 256] = some [0x12, 1, v % 256]
      rw [show v % 256 % 256 = v % 256 from by omega]
  | jmp v =>
    refine ⟨?_, ?_⟩
    · show assemble ["JMP".toList ++ (' ' :: natDigits v)] = some [0x30, v % 256]
      rw [assemble_single (pass1_mnem_num2 "JMP".toList v 2 (by decide) (by decide) rfl)]
      have hpv : parse_value (pystrip (natDigits v)) [] = some (v % 256) := by
        rw [pystrip_of_plain (natDigits_plain v)]
        exact parse_value_natDigits v []
      unfold emit1
      dsimp only
      rw [hpv]
      show some [0x30, v % 256 % 256] = some [0x30, v % 256]
      rw [show v % 256 % 256 = v % 256 from by omega]
    · have hmid : (step (load_bin cpu0 (specEncode (Choice.jmp v)) 0) inp).map
          stepObs = some (0, 0, false, v % 256 % 256 % 256, true) := rfl
      refine hmid.trans ?_
      rw [show v % 256 % 256 % 256 = v % 256 from by omega]
      rfl
  | jz v =>
    refine ⟨?_, rfl⟩
    show assemble ["JZ".toList ++ (' ' :: natDigits v)] = some [0x31, v % 256]
    rw [assemble_single (pass1_mnem_num2 "JZ".toList v 2 (by decide) (by decide) rfl)]
    have hpv : parse_value (pystrip (natDigits v)) [] = some (v % 256) := by
      rw [pystrip_of_plain (natDigits_plain v)]
      exact parse_value_natDigits v []
    unfold emit1
    dsimp only
    rw [hpv]
    show some [0x31, v % 256 % 256] = some [0x31, v % 256]
    rw [show v % 256 % 256 = v % 256 from by omega]
  | jnz v =>
    refine ⟨?_, ?_⟩
    · show assemble ["JNZ".toList ++ (' ' :: natDigits v)] = some [0x32, v % 256]
      rw [assemble_single (pass1_mnem_num2 "JNZ".toList v 2 (by decide) (by decide) rfl)]
      have hpv : parse_value (pystrip (natDigits v)) [] = some (v % 256) := by
        rw [pystrip_of_plain (natDigits_plain v)]
        exact parse_value_natDigits v []
      unfold emit1
      dsimp only
      rw [hpv]
      show some [0x32, v % 256 % 256] = some [0x32, v % 256]
      rw [show v % 256 % 256 = v % 256 from by omega]
    · have hmid : (step (load_bin cpu0 (specEncode (Choice.jnz v)) 0) inp).map
          stepObs = some (0, 0, false, v % 256 % 256 % 256, true) := rfl
      refine hmid.trans ?_
      rw [show v % 256 % 256 % 256 = v % 256 from by omega]
      rfl

/-- Witness for C1: LDI A,65 with empty input. -/
theorem c1_round_trip_witness :
    (∀ x ∈ ([] : List Nat), x < 256) ∧
    (assemble [srcLine (Choice.ldi 0 65)] = some (specEncode (Choice.ldi 0 65)) ∧
     (step (load_bin cpu0 (specEncode (Choice.ldi 0 65)) 0) []).map stepObs =
       some (specPredict (Choice.ldi 0 65) [])) :=
  ⟨by simp, c1_round_trip (Choice.ldi 0 65) [] (by simp)⟩

end EightBit
